import Mathlib

/-!
Verification of the pairing engine of `pyslackrandomcoffee.py`.

The pairing core consists of the Python functions `generate_pairs` and its
inner helper `pair_excluding_historic_matches`.  The embedding below mirrors
the Python code statement by statement:

* Python lists of member identifiers become `List String`, keeping the same
  order; `list.pop()` (remove and return the last element) is `pyPop`,
  `list.remove(x)` (remove the first occurrence of `x`) is `pyRemove`,
  `members[-1]` is `pyLast`.
* `random.shuffle(members)` shuffles the caller's list in place.  It is
  modelled by taking the post-shuffle order as the input of the embedded
  function and quantifying theorems over every such order.
* `random.sample(l, 1)[0]` draws one element of `l` and raises `ValueError`
  on an empty `l`; it is modelled by `pyPick l c` where `c` is the draw
  supplied by a choice oracle `choice : Nat → Nat` (one draw per loop
  iteration), with `none` for the empty-list error.
* The dict `members_previous_matches` becomes an association list with the
  same keys (the shuffled members) and values (`list(set(matches))`, modelled
  with `List.dedup`); a missing key (Python `KeyError`) surfaces as a failed
  `List.lookup`.
* Exceptions escaping a function are modelled by an `Option` result, `none`
  meaning an uncaught exception.  The `while` loop is driven by fuel; the
  caller `generate_pairs_state` supplies `members.length`, which is shown to
  be sufficient, so the out-of-fuel `none` is never reached.
* Because the Python loop rebinds `members` to the very list object that the
  helper mutates, the caller's list after the call is the loop's final
  working list; `generate_pairs_state` returns it as the second component,
  and `generate_pairs` itself returns the pairs, the Python return value.
-/

namespace PySlackRandomCoffee

abbrev Member := String

abbrev MPair := Member × Member

/-- Model of `random.sample(l, 1)[0]` given a draw `c`: the element at index
`c % len(l)`, `none` (a `ValueError`) when `l` is empty. -/
def pyPick (l : List Member) (c : Nat) : Option Member :=
  l.get? (c % l.length)

/-- Model of Python `list.remove(x)`: drop the first occurrence of `x`.
Every call site removes an element just sampled from the list, so the
missing-element `ValueError` of Python is unreachable and not modelled. -/
def pyRemove : List Member → Member → List Member
  | [], _ => []
  | y :: ys, x => if y = x then ys else y :: pyRemove ys x

/-- Model of Python `list.pop()`: remove and return the last element. -/
def pyPop : List Member → Option (Member × List Member)
  | [] => none
  | [x] => some (x, [])
  | x :: y :: t =>
    match pyPop (y :: t) with
    | some (m, rest) => some (m, x :: rest)
    | none => none

/-- Model of Python `members[-1]`: the last element of the list. -/
def pyLast (l : List Member) : Option Member :=
  l.get? (l.length - 1)

/-- The `matches` list built for one `member` by the nested
`for pair_set in previous_pairs: for p1, p2 in pair_set:` loops of
`generate_pairs`. -/
def build_matches (member : Member) (previous_pairs : List (List MPair)) :
    List Member :=
  previous_pairs.foldl
    (fun matchAcc pair_set =>
      pair_set.foldl
        (fun acc p =>
          if p.1 = member then acc ++ [p.2]
          else if p.2 = member then acc ++ [p.1]
          else acc)
        matchAcc)
    []

/-- The dict `members_previous_matches = {member: list(set(matches))}` of
`generate_pairs`, as an association list keyed by the shuffled members. -/
def members_previous_matches (members : List Member)
    (previous_pairs : List (List MPair)) : List (Member × List Member) :=
  members.map (fun member => (member, (build_matches member previous_pairs).dedup))

/-- Python truthiness of the `previous_pairs` argument: `None` and the empty
list are falsy. -/
def history_truthy : Option (List (List MPair)) → Bool
  | none => false
  | some l => !l.isEmpty

/-- The exclusion dict that `generate_pairs` passes to the helper: built only
under `if members and previous_pairs:`, otherwise left empty. -/
def mpm_of (members : List Member) (previous_pairs : Option (List (List MPair))) :
    List (Member × List Member) :=
  if !members.isEmpty && history_truthy previous_pairs then
    members_previous_matches members (previous_pairs.getD [])
  else []

/-- The inner helper `pair_excluding_historic_matches` of `generate_pairs`:
if the exclusion dict is truthy, look up `member1`'s previous matches
(`none` models the uncaught `KeyError`), filter them out of `members`, try to
sample from the filtered candidates and on `ValueError` (empty candidates)
fall back to sampling from the full `members`; with a falsy dict sample from
the full `members` directly.  The sampled `member2` is removed from the list
and `(member1, member2)` is returned with the shrunken list. -/
def pair_excluding_historic_matches (member1 : Member) (members : List Member)
    (mpm : List (Member × List Member)) (c : Nat) :
    Option (MPair × List Member) :=
  let member2? : Option Member :=
    if mpm.isEmpty then pyPick members c
    else
      (List.lookup member1 mpm).bind fun excl =>
        match pyPick (members.filter fun m => !(excl.contains m)) c with
        | some member2 => some member2
        | none => pyPick members c
  member2?.map fun member2 => ((member1, member2), pyRemove members member2)

/-- The `while len(members):` loop of `generate_pairs`.  While at least two
members remain, the next `member1` is popped off the end of the list;
with exactly one member left, `first_member` absorbs the extra pairing.
`step` numbers the loop iterations and feeds the choice oracle.  The result
carries the pairs in the order they were formed together with the final
contents of the working list (the caller's mutated `members` object). -/
def pairing_loop (mpm : List (Member × List Member)) (choice : Nat → Nat)
    (first_member : Member) :
    Nat → Nat → List Member → Option (List MPair × List Member)
  | _, _, [] => some ([], [])
  | 0, _, _ :: _ => none
  | fuel + 1, step, m :: ms =>
    if 2 ≤ (m :: ms).length then
      (pyPop (m :: ms)).bind fun pr =>
        (pair_excluding_historic_matches pr.1 pr.2 mpm (choice step)).bind fun pm =>
          (pairing_loop mpm choice first_member fuel (step + 1) pm.2).map fun res =>
            (pm.1 :: res.1, res.2)
    else
      (pair_excluding_historic_matches first_member (m :: ms) mpm (choice step)).bind fun pm =>
        (pairing_loop mpm choice first_member fuel (step + 1) pm.2).map fun res =>
          (pm.1 :: res.1, res.2)

/-- `generate_pairs`, full state: the returned pairs together with the final
contents of the caller's `members` list (which the Python code mutates in
place).  The input list is taken in post-shuffle order. -/
def generate_pairs_state (members : List Member)
    (previous_pairs : Option (List (List MPair))) (choice : Nat → Nat) :
    Option (List MPair × List Member) :=
  let mpm := mpm_of members previous_pairs
  if members.isEmpty then some ([], members)
  else
    (pyLast members).bind fun first_member =>
      pairing_loop mpm choice first_member members.length 0 members

/-- The Python return value of `generate_pairs`: the list of pairs. -/
def generate_pairs (members : List Member)
    (previous_pairs : Option (List (List MPair))) (choice : Nat → Nat) :
    Option (List MPair) :=
  (generate_pairs_state members previous_pairs choice).map Prod.fst

/-- All elements appearing in a list of pairs, with multiplicity. -/
def pair_elems : List MPair → List Member
  | [] => []
  | p :: ps => p.1 :: p.2 :: pair_elems ps

/-- `a` and `b` were matched in some pair of some round of the history:
the specification's notion of `b` lying in `a`'s exclusion set. -/
def historicallyPaired (history : List (List MPair)) (a b : Member) : Prop :=
  ∃ round ∈ history, ∃ p ∈ round, (p.1 = a ∧ p.2 = b) ∨ (p.1 = b ∧ p.2 = a)

instance (history : List (List MPair)) (a b : Member) :
    Decidable (historicallyPaired history a b) := by
  unfold historicallyPaired; infer_instance

/-! Basic facts about the models of the Python list primitives. -/

theorem pyPick_mem {l : List Member} {c : Nat} {m : Member}
    (h : pyPick l c = some m) : m ∈ l :=
  List.get?_mem h

theorem pyPick_some_of_ne_nil {l : List Member} (hne : l ≠ []) (c : Nat) :
    ∃ m, pyPick l c = some m := by
  have hl : 0 < l.length := List.length_pos.mpr hne
  exact ⟨_, List.get?_eq_get (Nat.mod_lt c hl)⟩

theorem pyPick_eq_none {l : List Member} {c : Nat}
    (h : pyPick l c = none) : l = [] := by
  by_contra hne
  obtain ⟨m, hm⟩ := pyPick_some_of_ne_nil hne c
  rw [h] at hm
  cases hm

theorem pyPick_singleton (x : Member) (c : Nat) : pyPick [x] c = some x := by
  simp [pyPick, Nat.mod_one]

theorem pyPick_nil (c : Nat) : pyPick [] c = none := rfl

theorem pyRemove_sublist (l : List Member) (x : Member) :
    List.Sublist (pyRemove l x) l := by
  induction l with
  | nil => simp [pyRemove]
  | cons y ys ih =>
    by_cases hyx : y = x
    · rw [pyRemove, if_pos hyx]
      exact List.sublist_cons_self y ys
    · simpa [pyRemove, hyx] using List.Sublist.cons₂ y ih

theorem pyRemove_subset {l : List Member} {x m : Member}
    (h : m ∈ pyRemove l x) : m ∈ l :=
  (pyRemove_sublist l x).subset h

theorem pyRemove_perm {l : List Member} {x : Member} (h : x ∈ l) :
    List.Perm l (x :: pyRemove l x) := by
  induction l with
  | nil => cases h
  | cons y ys ih =>
    by_cases hyx : y = x
    · subst hyx
      simp [pyRemove]
    · have hx : x ∈ ys := by
        rcases List.mem_cons.mp h with h' | h'
        · exact absurd h'.symm hyx
        · exact h'
      have : List.Perm (y :: ys) (y :: (x :: pyRemove ys x)) :=
        List.Perm.cons y (ih hx)
      simpa [pyRemove, hyx] using this.trans (List.Perm.swap x y _)

theorem pyRemove_length {l : List Member} {x : Member} (h : x ∈ l) :
    (pyRemove l x).length + 1 = l.length := by
  simpa using ((pyRemove_perm h).length_eq).symm

theorem pyRemove_nodup {l : List Member} (h : l.Nodup) (x : Member) :
    (pyRemove l x).Nodup :=
  (pyRemove_sublist l x).nodup h

theorem pyPop_eq_append : ∀ {l rest : List Member} {m : Member},
    pyPop l = some (m, rest) → l = rest ++ [m] := by
  intro l
  induction l with
  | nil => intro rest m h; cases h
  | cons x xs ih =>
    intro rest m h
    cases xs with
    | nil =>
      simp [pyPop] at h
      simp [← h.1, ← h.2]
    | cons y t =>
      rw [pyPop] at h
      cases hp : pyPop (y :: t) with
      | none => rw [hp] at h; cases h
      | some p =>
        obtain ⟨m', r'⟩ := p
        rw [hp] at h
        simp only [Option.some.injEq, Prod.mk.injEq] at h
        obtain ⟨hm, hr⟩ := h
        subst hm; subst hr
        simpa using congrArg (x :: ·) (ih hp)

theorem pyPop_some_of_ne_nil : ∀ {l : List Member}, l ≠ [] →
    ∃ m rest, pyPop l = some (m, rest) := by
  intro l
  induction l with
  | nil => intro h; exact absurd rfl h
  | cons x xs ih =>
    intro _
    cases xs with
    | nil => exact ⟨x, [], rfl⟩
    | cons y t =>
      obtain ⟨m, rest, hp⟩ := ih (by simp)
      refine ⟨m, x :: rest, ?_⟩
      rw [pyPop, hp]

theorem pyLast_append (rest : List Member) (m : Member) :
    pyLast (rest ++ [m]) = some m := by
  unfold pyLast
  rw [List.length_append, List.length_singleton]
  have h1 : rest.length + 1 - 1 = rest.length := by omega
  rw [h1, List.get?_append_right (Nat.le_refl _)]
  simp

theorem pyLast_decomp {l : List Member} (hne : l ≠ []) :
    ∃ rest m, l = rest ++ [m] ∧ pyLast l = some m := by
  refine ⟨l.dropLast, l.getLast hne, (List.dropLast_append_getLast hne).symm, ?_⟩
  conv_lhs => rw [← List.dropLast_append_getLast hne]
  exact pyLast_append _ _

theorem lookup_members_previous_matches {m : Member} {members : List Member}
    (H : List (List MPair)) (h : m ∈ members) :
    List.lookup m (members_previous_matches members H) =
      some ((build_matches m H).dedup) := by
  induction members with
  | nil => cases h
  | cons b bs ih =>
    by_cases hmb : m = b
    · subst hmb
      simp [members_previous_matches, List.lookup]
    · have hm : m ∈ bs := by
        rcases List.mem_cons.mp h with h' | h'
        · exact absurd h' hmb
        · exact h'
      have hb : (m == b) = false := beq_eq_false_iff_ne.mpr hmb
      simpa [members_previous_matches, List.lookup, hb] using ih hm

/-! Shape and totality of the helper `pair_excluding_historic_matches`. -/

theorem pair_excluding_shape {m1 : Member} {ms : List Member}
    {mpm : List (Member × List Member)} {c : Nat} {p : MPair} {ms2 : List Member}
    (h : pair_excluding_historic_matches m1 ms mpm c = some (p, ms2)) :
    ∃ m2, p = (m1, m2) ∧ m2 ∈ ms ∧ ms2 = pyRemove ms m2 := by
  unfold pair_excluding_historic_matches at h
  simp only [Option.map_eq_some'] at h
  obtain ⟨m2, hm2, heq⟩ := h
  simp only [Prod.mk.injEq] at heq
  refine ⟨m2, heq.1.symm, ?_, heq.2.symm⟩
  split at hm2
  · exact pyPick_mem hm2
  · simp only [Option.bind_eq_some] at hm2
    obtain ⟨excl, _, hm2⟩ := hm2
    split at hm2
    · rename_i hp
      cases hm2
      exact (List.mem_filter.mp (pyPick_mem hp)).1
    · exact pyPick_mem hm2

theorem pair_excluding_total (m1 : Member) {ms : List Member}
    {mpm : List (Member × List Member)} (c : Nat) (hne : ms ≠ [])
    (hl : mpm = [] ∨ (List.lookup m1 mpm).isSome) :
    ∃ m2, m2 ∈ ms ∧
      pair_excluding_historic_matches m1 ms mpm c =
        some ((m1, m2), pyRemove ms m2) := by
  by_cases hmpm : mpm.isEmpty = true
  · obtain ⟨m2, hp⟩ := pyPick_some_of_ne_nil hne c
    refine ⟨m2, pyPick_mem hp, ?_⟩
    simp [pair_excluding_historic_matches, hmpm, hp]
  · have hs : (List.lookup m1 mpm).isSome := by
      rcases hl with h | h
      · subst h; simp at hmpm
      · exact h
    obtain ⟨excl, hsome⟩ := Option.isSome_iff_exists.mp hs
    cases hp : pyPick (ms.filter fun m => !decide (m ∈ excl)) c with
    | some m2 =>
      refine ⟨m2, (List.mem_filter.mp (pyPick_mem hp)).1, ?_⟩
      simp [pair_excluding_historic_matches, hmpm, hsome, hp]
    | none =>
      obtain ⟨m2, hp2⟩ := pyPick_some_of_ne_nil hne c
      refine ⟨m2, pyPick_mem hp2, ?_⟩
      simp [pair_excluding_historic_matches, hmpm, hsome, hp, hp2]

/-! Inversion and structural facts about the pairing loop. -/

theorem pairing_loop_cons_inv {mpm : List (Member × List Member)}
    {choice : Nat → Nat} {fm : Member} {fuel step : Nat} {m : Member}
    {ms : List Member} {pairs : List MPair} {fin : List Member}
    (h : pairing_loop mpm choice fm (fuel + 1) step (m :: ms) = some (pairs, fin)) :
    (2 ≤ (m :: ms).length ∧ ∃ member1 rest m2 pairs',
      pyPop (m :: ms) = some (member1, rest) ∧ m2 ∈ rest ∧
      pair_excluding_historic_matches member1 rest mpm (choice step) =
        some ((member1, m2), pyRemove rest m2) ∧
      pairing_loop mpm choice fm fuel (step + 1) (pyRemove rest m2) =
        some (pairs', fin) ∧
      pairs = (member1, m2) :: pairs') ∨
    ((m :: ms).length = 1 ∧ ∃ m2 pairs', m2 ∈ m :: ms ∧
      pair_excluding_historic_matches fm (m :: ms) mpm (choice step) =
        some ((fm, m2), pyRemove (m :: ms) m2) ∧
      pairing_loop mpm choice fm fuel (step + 1) (pyRemove (m :: ms) m2) =
        some (pairs', fin) ∧
      pairs = (fm, m2) :: pairs') := by
  rw [pairing_loop] at h
  split at h
  · left
    rename_i hlen
    refine ⟨hlen, ?_⟩
    simp only [Option.bind_eq_some, Option.map_eq_some'] at h
    obtain ⟨pr, hpop, pm, hstep, res, hrec, hres⟩ := h
    obtain ⟨member1, rest⟩ := pr
    obtain ⟨m2, hpm1, hm2, hpm2⟩ := pair_excluding_shape hstep
    obtain ⟨pairs', fin'⟩ := res
    refine ⟨member1, rest, m2, pairs', hpop, hm2, ?_, ?_, ?_⟩
    · rw [hstep]
      simp only [Prod.mk.injEq] at hpm1 ⊢
      rw [show pm = ((member1, m2), pyRemove rest m2) from by
        cases pm; simp_all]
    · rw [← show pm.2 = pyRemove rest m2 from hpm2]
      rw [hrec]
      simp only [Prod.mk.injEq] at hres
      simp [hres.2]
    · simp only [Prod.mk.injEq] at hres
      rw [← hres.1, hpm1]
  · right
    rename_i hlen
    refine ⟨by simp only [List.length_cons] at hlen ⊢; omega, ?_⟩
    simp only [Option.bind_eq_some, Option.map_eq_some'] at h
    obtain ⟨pm, hstep, res, hrec, hres⟩ := h
    obtain ⟨m2, hpm1, hm2, hpm2⟩ := pair_excluding_shape hstep
    obtain ⟨pairs', fin'⟩ := res
    refine ⟨m2, pairs', hm2, ?_, ?_, ?_⟩
    · rw [hstep]
      rw [show pm = ((fm, m2), pyRemove (m :: ms) m2) from by
        cases pm; simp_all]
    · rw [← show pm.2 = pyRemove (m :: ms) m2 from hpm2]
      rw [hrec]
      simp only [Prod.mk.injEq] at hres
      simp [hres.2]
    · simp only [Prod.mk.injEq] at hres
      rw [← hres.1, hpm1]

theorem pairing_loop_final (mpm : List (Member × List Member))
    (choice : Nat → Nat) (fm : Member) :
    ∀ fuel step ms pairs fin,
      pairing_loop mpm choice fm fuel step ms = some (pairs, fin) → fin = [] := by
  intro fuel
  induction fuel with
  | zero =>
    intro step ms pairs fin h
    cases ms with
    | nil =>
      rw [pairing_loop] at h
      simp only [Option.some.injEq, Prod.mk.injEq] at h
      exact h.2.symm
    | cons m ms' =>
      rw [pairing_loop] at h
      exact Option.noConfusion h
  | succ fuel ih =>
    intro step ms pairs fin h
    cases ms with
    | nil =>
      rw [pairing_loop] at h
      simp only [Option.some.injEq, Prod.mk.injEq] at h
      exact h.2.symm
    | cons m ms' =>
      rcases pairing_loop_cons_inv h with
        ⟨_, _, _, _, _, _, _, _, hrec, _⟩ | ⟨_, _, _, _, _, hrec, _⟩
      · exact ih _ _ _ _ hrec
      · exact ih _ _ _ _ hrec

theorem pairing_loop_perm (mpm : List (Member × List Member))
    (choice : Nat → Nat) (fm : Member) :
    ∀ fuel step ms pairs fin,
      pairing_loop mpm choice fm fuel step ms = some (pairs, fin) →
      (ms.length % 2 = 0 → List.Perm (pair_elems pairs) ms) ∧
      (ms.length % 2 = 1 → List.Perm (pair_elems pairs) (fm :: ms)) := by
  intro fuel
  induction fuel with
  | zero =>
    intro step ms pairs fin h
    cases ms with
    | nil =>
      rw [pairing_loop] at h
      simp only [Option.some.injEq, Prod.mk.injEq] at h
      refine ⟨fun _ => ?_, fun hodd => by simp at hodd⟩
      rw [← h.1]
      exact List.Perm.refl _
    | cons m ms' =>
      rw [pairing_loop] at h
      exact Option.noConfusion h
  | succ fuel ih =>
    intro step ms pairs fin h
    cases ms with
    | nil =>
      rw [pairing_loop] at h
      simp only [Option.some.injEq, Prod.mk.injEq] at h
      refine ⟨fun _ => ?_, fun hodd => by simp at hodd⟩
      rw [← h.1]
      exact List.Perm.refl _
    | cons m ms' =>
      rcases pairing_loop_cons_inv h with
        ⟨hlen, member1, rest, m2, pairs', hpop, hm2, _, hrec, hpairs⟩ |
        ⟨hlen1, m2, pairs', hm2, _, hrec, hpairs⟩
      · have hms : m :: ms' = rest ++ [member1] := pyPop_eq_append hpop
        have hrl : rest.length + 1 = (m :: ms').length := by rw [hms]; simp
        have hRlen : (pyRemove rest m2).length + 1 = rest.length :=
          pyRemove_length hm2
        have ihp := ih (step + 1) (pyRemove rest m2) pairs' fin hrec
        have hperm1 : List.Perm (m2 :: pyRemove rest m2) rest :=
          (pyRemove_perm hm2).symm
        subst hpairs
        constructor
        · intro heven
          have hev2 : (pyRemove rest m2).length % 2 = 0 := by
            simp only [List.length_cons] at heven hrl; omega
          have hp' := ihp.1 hev2
          rw [hms]
          show List.Perm (member1 :: m2 :: pair_elems pairs') (rest ++ [member1])
          refine List.Perm.trans ?_ (List.perm_append_singleton member1 rest).symm
          exact List.Perm.cons member1 ((List.Perm.cons m2 hp').trans hperm1)
        · intro hodd
          have hodd2 : (pyRemove rest m2).length % 2 = 1 := by
            simp only [List.length_cons] at hodd hrl; omega
          have hp' := ihp.2 hodd2
          rw [hms]
          show List.Perm (member1 :: m2 :: pair_elems pairs')
            (fm :: (rest ++ [member1]))
          have q1 : List.Perm (m2 :: pair_elems pairs') (fm :: rest) :=
            ((List.Perm.cons m2 hp').trans
              (List.Perm.swap fm m2 (pyRemove rest m2))).trans
              (List.Perm.cons fm hperm1)
          refine (List.Perm.cons member1 q1).trans ?_
          refine (List.Perm.swap fm member1 rest).trans ?_
          exact List.Perm.cons fm (List.perm_append_singleton member1 rest).symm
      · have hms' : ms' = [] := by
          simp only [List.length_cons] at hlen1
          exact List.length_eq_zero.mp (by omega)
        subst hms'
        have hm2m : m2 = m := by simpa using hm2
        subst hm2m
        have hrem : pyRemove [m2] m2 = [] := by simp [pyRemove]
        rw [hrem, pairing_loop] at hrec
        simp only [Option.some.injEq, Prod.mk.injEq] at hrec
        subst hpairs
        rw [← hrec.1]
        refine ⟨fun heven => by simp at heven, fun _ => ?_⟩
        exact List.Perm.refl _

theorem pairing_loop_total (mpm : List (Member × List Member))
    (choice : Nat → Nat) (fm : Member)
    (hfm : mpm = [] ∨ (List.lookup fm mpm).isSome) :
    ∀ fuel step ms, ms.length ≤ fuel →
      (mpm = [] ∨ ∀ m ∈ ms, (List.lookup m mpm).isSome) →
      ∃ out, pairing_loop mpm choice fm fuel step ms = some out := by
  intro fuel
  induction fuel with
  | zero =>
    intro step ms hle _
    have hms : ms = [] := List.length_eq_zero.mp (by omega)
    subst hms
    exact ⟨([], []), by rw [pairing_loop]⟩
  | succ fuel ih =>
    intro step ms hle hlk
    cases ms with
    | nil => exact ⟨([], []), by rw [pairing_loop]⟩
    | cons m ms' =>
      by_cases hlen : 2 ≤ (m :: ms').length
      · obtain ⟨member1, rest, hpop⟩ :=
          @pyPop_some_of_ne_nil (m :: ms') (by simp)
        have hms : m :: ms' = rest ++ [member1] := pyPop_eq_append hpop
        have hrl : rest.length + 1 = (m :: ms').length := by rw [hms]; simp
        have hrest_ne : rest ≠ [] := by
          intro h0
          rw [h0] at hrl
          simp only [List.length_nil, List.length_cons] at hrl hlen
          omega
        have hm1lk : mpm = [] ∨ (List.lookup member1 mpm).isSome := by
          rcases hlk with hmp | hl
          · exact Or.inl hmp
          · exact Or.inr (hl member1 (by rw [hms]; simp))
        obtain ⟨m2, hm2, hstep⟩ :=
          pair_excluding_total member1 (choice step) hrest_ne hm1lk
        have hlk2 : mpm = [] ∨
            ∀ x ∈ pyRemove rest m2, (List.lookup x mpm).isSome := by
          rcases hlk with hmp | hl
          · exact Or.inl hmp
          · refine Or.inr fun x hx => hl x ?_
            rw [hms]
            exact List.mem_append_left _ (pyRemove_subset hx)
        have hlen3 : (pyRemove rest m2).length ≤ fuel := by
          have hR := pyRemove_length hm2
          simp only [List.length_cons] at hle hrl
          omega
        obtain ⟨out, hout⟩ := ih (step + 1) (pyRemove rest m2) hlen3 hlk2
        refine ⟨((member1, m2) :: out.1, out.2), ?_⟩
        rw [pairing_loop, if_pos hlen, hpop]
        simp [hstep, hout]
      · have hms' : ms' = [] := by
          simp only [List.length_cons] at hlen
          exact List.length_eq_zero.mp (by omega)
        subst hms'
        obtain ⟨m2, hm2, hstep⟩ :=
          @pair_excluding_total fm [m] mpm (choice step) (by simp) hfm
        have hm2m : m2 = m := by simpa using hm2
        subst hm2m
        refine ⟨((fm, m2) :: [], []), ?_⟩
        rw [pairing_loop, if_neg hlen]
        simp [hstep, pyRemove, pairing_loop]

theorem pairing_loop_no_self (mpm : List (Member × List Member))
    (choice : Nat → Nat) (fm : Member) :
    ∀ fuel step ms pairs fin,
      ms.Nodup →
      (fm ∉ ms ∨ (2 ≤ ms.length ∧ ∃ rest0, ms = rest0 ++ [fm])) →
      pairing_loop mpm choice fm fuel step ms = some (pairs, fin) →
      ∀ p ∈ pairs, p.1 ≠ p.2 := by
  intro fuel
  induction fuel with
  | zero =>
    intro step ms pairs fin _ _ h p hp
    cases ms with
    | nil =>
      rw [pairing_loop] at h
      simp only [Option.some.injEq, Prod.mk.injEq] at h
      rw [← h.1] at hp
      cases hp
    | cons m ms' =>
      rw [pairing_loop] at h
      exact Option.noConfusion h
  | succ fuel ih =>
    intro step ms pairs fin hnd hcond h
    cases ms with
    | nil =>
      rw [pairing_loop] at h
      simp only [Option.some.injEq, Prod.mk.injEq] at h
      intro p hp
      rw [← h.1] at hp
      cases hp
    | cons m ms' =>
      rcases pairing_loop_cons_inv h with
        ⟨_, member1, rest, m2, pairs', hpop, hm2, _, hrec, hpairs⟩ |
        ⟨hlen1, m2, pairs', hm2, _, hrec, hpairs⟩
      · have hms : m :: ms' = rest ++ [member1] := pyPop_eq_append hpop
        have hnd' : (rest ++ [member1]).Nodup := hms ▸ hnd
        obtain ⟨hndrest, _, hdisj⟩ := List.nodup_append.mp hnd'
        have hm1rest : member1 ∉ rest := fun hc => hdisj hc (by simp)
        have hm2ne : m2 ≠ member1 := fun hc => hm1rest (hc ▸ hm2)
        have hnd2 : (pyRemove rest m2).Nodup := pyRemove_nodup hndrest m2
        have hfm2 : fm ∉ pyRemove rest m2 := by
          rcases hcond with hout | ⟨_, rest0, hsplit⟩
          · intro hc
            exact hout
              (hms ▸ List.mem_append_left _ (pyRemove_subset hc))
          · have heq : rest0 ++ [fm] = rest ++ [member1] :=
              hsplit.symm.trans hms
            have hlen0 : rest0.length = rest.length := by
              have := congrArg List.length heq
              simp only [List.length_append, List.length_singleton] at this
              omega
            obtain ⟨hr0, hf0⟩ := List.append_inj heq hlen0
            have hfmm1 : fm = member1 := by
              simpa using hf0
            intro hc
            exact hm1rest (hfmm1 ▸ pyRemove_subset hc)
        subst hpairs
        intro p hp
        rcases List.mem_cons.mp hp with hp1 | hp2
        · rw [hp1]
          exact fun hc => hm2ne (by simpa using hc.symm)
        · exact ih (step + 1) _ pairs' fin hnd2 (Or.inl hfm2) hrec p hp2
      · have hms' : ms' = [] := by
          simp only [List.length_cons] at hlen1
          exact List.length_eq_zero.mp (by omega)
        subst hms'
        have hout : fm ∉ [m] := by
          rcases hcond with hout | ⟨h2, _⟩
          · exact hout
          · simp only [List.length_cons, List.length_nil] at h2; omega
        have hm2m : m2 = m := by simpa using hm2
        have hfmne : fm ≠ m2 := by
          rw [hm2m]
          intro hc
          exact hout (by simp [hc])
        subst hpairs
        intro p hp
        rcases List.mem_cons.mp hp with hp1 | hp2
        · rw [hp1]
          simpa using hfmne
        · refine ih (step + 1) _ pairs' fin ?_ ?_ hrec p hp2
          · exact pyRemove_nodup (by simp) m2
          · refine Or.inl fun hc => hout ?_
            have := pyRemove_subset hc
            exact this

/-! The exclusion index built by the code agrees with the specification's
notion of historical partners. -/

theorem mem_pair_fold_step (a b : Member) (q : MPair) (acc : List Member) :
    b ∈ (if q.1 = a then acc ++ [q.2]
         else if q.2 = a then acc ++ [q.1] else acc) ↔
    b ∈ acc ∨ ((q.1 = a ∧ q.2 = b) ∨ (q.1 = b ∧ q.2 = a)) := by
  by_cases h1 : q.1 = a
  · rw [if_pos h1]
    simp only [List.mem_append, List.mem_singleton]
    constructor
    · rintro (h | h)
      · exact Or.inl h
      · exact Or.inr (Or.inl ⟨h1, h.symm⟩)
    · rintro (h | ⟨_, h2⟩ | ⟨hb, ha⟩)
      · exact Or.inl h
      · exact Or.inr h2.symm
      · exact Or.inr (by rw [ha, ← h1, hb])
  · rw [if_neg h1]
    by_cases h2 : q.2 = a
    · rw [if_pos h2]
      simp only [List.mem_append, List.mem_singleton]
      constructor
      · rintro (h | h)
        · exact Or.inl h
        · exact Or.inr (Or.inr ⟨h.symm, h2⟩)
      · rintro (h | ⟨ha, _⟩ | ⟨hb, _⟩)
        · exact Or.inl h
        · exact absurd ha h1
        · exact Or.inr hb.symm
    · rw [if_neg h2]
      constructor
      · exact fun h => Or.inl h
      · rintro (h | ⟨ha, _⟩ | ⟨_, ha⟩)
        · exact h
        · exact absurd ha h1
        · exact absurd ha h2

theorem mem_pair_fold (a b : Member) (ps : List MPair) :
    ∀ acc : List Member,
      b ∈ ps.foldl (fun acc p =>
          if p.1 = a then acc ++ [p.2]
          else if p.2 = a then acc ++ [p.1] else acc) acc ↔
      b ∈ acc ∨ ∃ p ∈ ps, (p.1 = a ∧ p.2 = b) ∨ (p.1 = b ∧ p.2 = a) := by
  induction ps with
  | nil => intro acc; simp
  | cons q qs ih =>
    intro acc
    rw [List.foldl_cons, ih, mem_pair_fold_step, List.exists_mem_cons_iff]
    exact or_assoc

theorem historicallyPaired_cons (a b : Member) (r : List MPair)
    (rs : List (List MPair)) :
    historicallyPaired (r :: rs) a b ↔
      (∃ p ∈ r, (p.1 = a ∧ p.2 = b) ∨ (p.1 = b ∧ p.2 = a)) ∨
        historicallyPaired rs a b := by
  unfold historicallyPaired
  exact List.exists_mem_cons_iff _ _ _

theorem mem_build_matches {a b : Member} {H : List (List MPair)} :
    b ∈ build_matches a H ↔ historicallyPaired H a b := by
  suffices h : ∀ acc : List Member,
      b ∈ H.foldl (fun matchAcc pair_set =>
        pair_set.foldl (fun acc p =>
          if p.1 = a then acc ++ [p.2]
          else if p.2 = a then acc ++ [p.1] else acc) matchAcc) acc ↔
      b ∈ acc ∨ historicallyPaired H a b by
    have := h []
    simpa [build_matches] using this
  induction H with
  | nil => intro acc; simp [historicallyPaired]
  | cons r rs ih =>
    intro acc
    rw [List.foldl_cons, ih, mem_pair_fold, historicallyPaired_cons]
    exact or_assoc

/-! Top-level wiring of `generate_pairs` to the loop. -/

theorem pair_elems_length (ps : List MPair) :
    (pair_elems ps).length = 2 * ps.length := by
  induction ps with
  | nil => rfl
  | cons p ps ih =>
    simp only [pair_elems, List.length_cons, ih]
    omega

theorem mpm_of_lookup (members : List Member)
    (hist : Option (List (List MPair))) :
    mpm_of members hist = [] ∨
    ∀ m ∈ members, (List.lookup m (mpm_of members hist)).isSome := by
  unfold mpm_of
  split
  · right
    intro m hm
    rw [lookup_members_previous_matches _ hm]
    rfl
  · left; rfl

theorem generate_pairs_state_inv {members : List Member}
    {hist : Option (List (List MPair))} {choice : Nat → Nat}
    {pairs : List MPair} {fin : List Member}
    (h : generate_pairs_state members hist choice = some (pairs, fin)) :
    (members = [] ∧ pairs = [] ∧ fin = []) ∨
    ∃ fm rest0, members = rest0 ++ [fm] ∧
      pairing_loop (mpm_of members hist) choice fm members.length 0 members =
        some (pairs, fin) := by
  unfold generate_pairs_state at h
  split at h
  · left
    rename_i hempty
    have hm : members = [] := List.isEmpty_iff.mp hempty
    simp only [Option.some.injEq, Prod.mk.injEq] at h
    exact ⟨hm, h.1.symm, hm ▸ h.2.symm⟩
  · right
    rename_i hempty
    have hm : members ≠ [] := fun hc => hempty (by simp [hc])
    simp only [Option.bind_eq_some] at h
    obtain ⟨fm, hlast, hloop⟩ := h
    obtain ⟨rest0, m0, hsplit, hlast0⟩ := pyLast_decomp hm
    rw [hlast0] at hlast
    injection hlast with hfm
    exact ⟨fm, rest0, hfm ▸ hsplit, hloop⟩

theorem generate_pairs_inv {members : List Member}
    {hist : Option (List (List MPair))} {choice : Nat → Nat}
    {pairs : List MPair}
    (h : generate_pairs members hist choice = some pairs) :
    (members = [] ∧ pairs = []) ∨
    ∃ fm rest0 fin, members = rest0 ++ [fm] ∧
      pairing_loop (mpm_of members hist) choice fm members.length 0 members =
        some (pairs, fin) := by
  unfold generate_pairs at h
  rw [Option.map_eq_some'] at h
  obtain ⟨⟨pairs', fin⟩, hst, hfst⟩ := h
  cases hfst
  rcases generate_pairs_state_inv hst with ⟨h1, h2, _⟩ | ⟨fm, rest0, hsplit, hloop⟩
  · exact Or.inl ⟨h1, h2⟩
  · exact Or.inr ⟨fm, rest0, fin, hsplit, hloop⟩

/-! Claim theorems. -/

/-- C6: for an empty members list, `generate_pairs` returns the empty list of
pairs, for every history argument (None, empty, or non-empty) and every
choice oracle. -/
theorem generate_pairs_empty_input (hist : Option (List (List MPair)))
    (choice : Nat → Nat) : generate_pairs [] hist choice = some [] := rfl

/-- C7: `generate_pairs` never raises an exception: for every members list
(in particular the empty and singleton lists), every history and every choice
oracle, the pairing loop terminates normally with a result.  In the
embedding, the exceptions (`ValueError`, `KeyError`) and divergence are the
`none` outcomes, and the result is always `some`. -/
theorem generate_pairs_never_fails (members : List Member)
    (hist : Option (List (List MPair))) (choice : Nat → Nat) :
    ∃ pairs, generate_pairs members hist choice = some pairs := by
  by_cases hne : members = []
  · subst hne
    exact ⟨[], rfl⟩
  · obtain ⟨rest0, fm, hsplit, hlast⟩ := pyLast_decomp hne
    have hfm_mem : fm ∈ members := by rw [hsplit]; simp
    have hfm : mpm_of members hist = [] ∨
        (List.lookup fm (mpm_of members hist)).isSome := by
      rcases mpm_of_lookup members hist with h | h
      · exact Or.inl h
      · exact Or.inr (h fm hfm_mem)
    obtain ⟨out, hout⟩ := pairing_loop_total (mpm_of members hist) choice fm hfm
      members.length 0 members (Nat.le_refl _) (mpm_of_lookup members hist)
    have hne' : ¬ members.isEmpty = true := by
      simpa [List.isEmpty_iff] using hne
    refine ⟨out.1, ?_⟩
    unfold generate_pairs
    rw [Option.map_eq_some']
    refine ⟨out, ?_, rfl⟩
    simp only [generate_pairs_state]
    rw [if_neg hne', hlast]
    simpa using hout

/-- C2: for every non-empty members list, every member of the input appears
at least once among the elements of the returned pairs — no member is
dropped. -/
theorem generate_pairs_completeness (members : List Member)
    (hist : Option (List (List MPair))) (choice : Nat → Nat)
    (pairs : List MPair) (hne : members ≠ [])
    (hres : generate_pairs members hist choice = some pairs) :
    ∀ m ∈ members, m ∈ pair_elems pairs := by
  rcases generate_pairs_inv hres with ⟨h0, _⟩ | ⟨fm, rest0, fin, _, hloop⟩
  · exact absurd h0 hne
  · have hperm := pairing_loop_perm (mpm_of members hist) choice fm
      members.length 0 members pairs fin hloop
    intro m hm
    rcases Nat.mod_two_eq_zero_or_one members.length with hpar | hpar
    · exact (hperm.1 hpar).mem_iff.mpr hm
    · exact (hperm.2 hpar).mem_iff.mpr (List.mem_cons_of_mem fm hm)

theorem generate_pairs_completeness_witness :
    ("A" : Member) ∈ pair_elems [("B", "A")] :=
  generate_pairs_completeness ["A", "B"] none (fun _ => 0) [("B", "A")]
    (by decide) (by decide) "A" (by decide)

/-- C1: for pairwise-distinct members of even size N, `generate_pairs`
returns exactly N/2 pairs with each member appearing exactly once; for odd
size N it returns (N+1)/2 pairs in which exactly one member appears exactly
twice and every other member exactly once. -/
theorem generate_pairs_cardinality (members : List Member)
    (hist : Option (List (List MPair))) (choice : Nat → Nat)
    (pairs : List MPair) (hnd : members.Nodup)
    (hres : generate_pairs members hist choice = some pairs) :
    (members.length % 2 = 0 →
      pairs.length = members.length / 2 ∧
      ∀ m ∈ members, List.count m (pair_elems pairs) = 1) ∧
    (members.length % 2 = 1 →
      pairs.length = (members.length + 1) / 2 ∧
      ∃ d ∈ members, List.count d (pair_elems pairs) = 2 ∧
        ∀ m ∈ members, m ≠ d → List.count m (pair_elems pairs) = 1) := by
  rcases generate_pairs_inv hres with ⟨h0, hp0⟩ | ⟨fm, rest0, fin, hsplit, hloop⟩
  · subst h0; subst hp0
    constructor
    · intro _
      exact ⟨rfl, fun m hm => absurd hm (List.not_mem_nil m)⟩
    · intro hodd
      simp at hodd
  · have hperm := pairing_loop_perm (mpm_of members hist) choice fm
      members.length 0 members pairs fin hloop
    have hfm_mem : fm ∈ members := by rw [hsplit]; simp
    have h2len : (pair_elems pairs).length = 2 * pairs.length :=
      pair_elems_length pairs
    constructor
    · intro heven
      have hp := hperm.1 heven
      have hlen := hp.length_eq
      refine ⟨by omega, fun m hm => ?_⟩
      rw [hp.count_eq m]
      exact List.count_eq_one_of_mem hnd hm
    · intro hodd
      have hp := hperm.2 hodd
      have hlen := hp.length_eq
      simp only [List.length_cons] at hlen
      refine ⟨by omega, fm, hfm_mem, ?_, ?_⟩
      · rw [hp.count_eq fm, List.count_cons_self,
          List.count_eq_one_of_mem hnd hfm_mem]
      · intro m hm hmfm
        rw [hp.count_eq m, List.count_cons_of_ne hmfm]
        exact List.count_eq_one_of_mem hnd hm

theorem generate_pairs_cardinality_witness :
    ([("B", "A")] : List MPair).length = (["A", "B"] : List Member).length / 2 ∧
    ∀ m ∈ (["A", "B"] : List Member),
      List.count m (pair_elems [("B", "A")]) = 1 :=
  (generate_pairs_cardinality ["A", "B"] none (fun _ => 0) [("B", "A")]
    (by decide) (by decide)).1 (by decide)

/-- C8 (amended): for an odd-size roster of pairwise-distinct members, the
member that appears twice in the output is the LAST member of the shuffled
working sequence — the `first_member = members[-1]` the code records before
consuming anything, which is also the first member the loop pops. -/
theorem odd_one_out_is_last_member (members rest0 : List Member) (d : Member)
    (hist : Option (List (List MPair))) (choice : Nat → Nat)
    (pairs : List MPair)
    (hnd : members.Nodup) (hodd : members.length % 2 = 1)
    (hsplit : members = rest0 ++ [d])
    (hres : generate_pairs members hist choice = some pairs) :
    List.count d (pair_elems pairs) = 2 := by
  rcases generate_pairs_inv hres with ⟨h0, _⟩ | ⟨fm, rest1, fin, hsplit1, hloop⟩
  · rw [h0] at hodd; simp at hodd
  · have heq : rest0 ++ [d] = rest1 ++ [fm] := hsplit.symm.trans hsplit1
    have hlen0 : rest0.length = rest1.length := by
      have := congrArg List.length heq
      simp only [List.length_append, List.length_singleton] at this
      omega
    obtain ⟨_, hdf⟩ := List.append_inj heq hlen0
    have hdfm : d = fm := by simpa using hdf
    subst hdfm
    have hd_mem : d ∈ members := by rw [hsplit]; simp
    have hp := (pairing_loop_perm (mpm_of members hist) choice d
      members.length 0 members pairs fin hloop).2 hodd
    rw [hp.count_eq d, List.count_cons_self,
      List.count_eq_one_of_mem hnd hd_mem]

/-- C8 counterexample: with shuffled working sequence ["A","B","C"] and no
history, the output is [("C","A"),("C","B")]; the FIRST member "A" of the
shuffled sequence appears once, not twice (the duplicated member is the last
member "C"). -/
theorem odd_one_out_first_member_counterexample :
    generate_pairs ["A", "B", "C"] none (fun _ => 0) =
      some [("C", "A"), ("C", "B")] ∧
    ¬ List.count "A" (pair_elems [("C", "A"), ("C", "B")]) = 2 := by decide

theorem odd_one_out_is_last_member_witness :
    List.count "C" (pair_elems [("C", "A"), ("C", "B")]) = 2 :=
  odd_one_out_is_last_member ["A", "B", "C"] ["A", "B"] "C" none (fun _ => 0)
    [("C", "A"), ("C", "B")] (by decide) (by decide) (by decide) (by decide)

/-- C3 (amended): `generate_pairs` operates on the caller's list itself, not
a working copy: `random.shuffle` permutes it in place and the loop consumes
it, so after the call the caller's members list is always empty — for any
non-empty input it is not unchanged. -/
theorem generate_pairs_consumes_input (members : List Member)
    (hist : Option (List (List MPair))) (choice : Nat → Nat)
    (pairs : List MPair) (fin : List Member)
    (hres : generate_pairs_state members hist choice = some (pairs, fin)) :
    fin = [] := by
  rcases generate_pairs_state_inv hres with ⟨_, _, hfin⟩ | ⟨fm, rest0, _, hloop⟩
  · exact hfin
  · exact pairing_loop_final (mpm_of members hist) choice fm
      members.length 0 members pairs fin hloop

/-- C3 counterexample: for the caller's list ["A","B"] (already in shuffled
order) the call succeeds and leaves the caller's list empty, which differs
from the supplied ["A","B"] — the input sequence is not unchanged. -/
theorem generate_pairs_input_unchanged_counterexample :
    generate_pairs_state ["A", "B"] none (fun _ => 0) =
      some ([("B", "A")], []) ∧
    (([] : List Member) ≠ ["A", "B"]) := by decide

theorem generate_pairs_consumes_input_witness : ([] : List Member) = [] :=
  generate_pairs_consumes_input ["A", "B"] none (fun _ => 0) [("B", "A")] []
    (by decide)

/-- C9: for a roster of pairwise-distinct members with at least two entries,
no pair in the output of `generate_pairs` has two identical elements; a
self-pair can only arise from the forced odd-one-out absorption on a
singleton roster. -/
theorem generate_pairs_no_self_pairs (members : List Member)
    (hist : Option (List (List MPair))) (choice : Nat → Nat)
    (pairs : List MPair)
    (hnd : members.Nodup) (hlen : 2 ≤ members.length)
    (hres : generate_pairs members hist choice = some pairs) :
    ∀ p ∈ pairs, p.1 ≠ p.2 := by
  rcases generate_pairs_inv hres with ⟨h0, _⟩ | ⟨fm, rest0, fin, hsplit, hloop⟩
  · rw [h0] at hlen; simp at hlen
  · exact pairing_loop_no_self (mpm_of members hist) choice fm
      members.length 0 members pairs fin hnd
      (Or.inr ⟨hlen, rest0, hsplit⟩) hloop

theorem generate_pairs_no_self_pairs_witness :
    (("B", "A") : MPair).1 ≠ (("B", "A") : MPair).2 :=
  generate_pairs_no_self_pairs ["A", "B"] none (fun _ => 0) [("B", "A")]
    (by decide) (by decide) (by decide) ("B", "A") (by decide)

/-- C10: for a singleton roster [a] and every history argument (None, empty
or non-empty) and every choice oracle, `generate_pairs` returns exactly the
single self-pair [(a, a)] — the code resolves the spec's open question about
singleton rosters in favor of a self-pair. -/
theorem generate_pairs_singleton_self_pair (a : Member)
    (hist : Option (List (List MPair))) (choice : Nat → Nat) :
    generate_pairs [a] hist choice = some [(a, a)] := by
  cases hist with
  | none =>
    simp [generate_pairs, generate_pairs_state, mpm_of, history_truthy, pyLast,
      pairing_loop, pair_excluding_historic_matches, pyPick_singleton, pyRemove]
  | some H =>
    cases H with
    | nil =>
      simp [generate_pairs, generate_pairs_state, mpm_of, history_truthy,
        pyLast, pairing_loop, pair_excluding_historic_matches, pyPick_singleton,
        pyRemove]
    | cons r rs =>
      by_cases hc : a ∈ build_matches a (r :: rs)
      all_goals
        simp [generate_pairs, generate_pairs_state, mpm_of, history_truthy,
          pyLast, pairing_loop, pair_excluding_historic_matches,
          members_previous_matches, pyPick_singleton, pyPick_nil, pyRemove,
          List.lookup, List.filter, hc]

/-- C5: when the exclusion-filtered candidate set for the current member is
empty, the selection falls back to the full remaining list instead of
failing; in particular, for members {A,B} (in either shuffled order) with a
history containing the pair (A,B), `generate_pairs` still returns a single
pair consisting of A and B and raises no exception. -/
theorem generate_pairs_fallback_behavior :
    (∀ (m1 : Member) (ms : List Member) (mpm : List (Member × List Member))
        (c : Nat) (excl : List Member), ms ≠ [] →
        List.lookup m1 mpm = some excl →
        ms.filter (fun m => !(excl.contains m)) = [] →
        ∃ m2, m2 ∈ ms ∧
          pair_excluding_historic_matches m1 ms mpm c =
            some ((m1, m2), pyRemove ms m2)) ∧
    (∀ (choice : Nat → Nat) (ms : List Member),
        ms = ["A", "B"] ∨ ms = ["B", "A"] →
        ∃ p, generate_pairs ms (some [[("A", "B")]]) choice = some [p] ∧
          (p = ("A", "B") ∨ p = ("B", "A"))) := by
  constructor
  · intro m1 ms mpm c excl hne hlk hfilter
    have hmpm : ¬ mpm.isEmpty = true := by
      intro hh
      rw [List.isEmpty_iff.mp hh] at hlk
      cases hlk
    obtain ⟨m2, hp2⟩ := pyPick_some_of_ne_nil hne c
    refine ⟨m2, pyPick_mem hp2, ?_⟩
    simp only [pair_excluding_historic_matches]
    rw [if_neg hmpm, hlk, Option.some_bind, hfilter, pyPick_nil, hp2]
    rfl
  · intro choice ms hms
    rcases hms with h | h
    · subst h
      refine ⟨("B", "A"), ?_, Or.inr rfl⟩
      simp [generate_pairs, generate_pairs_state, mpm_of,
        members_previous_matches, build_matches, history_truthy, pyLast,
        pairing_loop, pyPop, pair_excluding_historic_matches, pyPick_singleton,
        pyPick_nil, pyRemove, List.lookup]
    · subst h
      refine ⟨("A", "B"), ?_, Or.inl rfl⟩
      simp [generate_pairs, generate_pairs_state, mpm_of,
        members_previous_matches, build_matches, history_truthy, pyLast,
        pairing_loop, pyPop, pair_excluding_historic_matches, pyPick_singleton,
        pyPick_nil, pyRemove, List.lookup]

theorem generate_pairs_fallback_witness :
    ∃ p, generate_pairs ["A", "B"] (some [[("A", "B")]]) (fun _ => 0) =
      some [p] ∧ (p = ("A", "B") ∨ p = ("B", "A")) :=
  generate_pairs_fallback_behavior.2 (fun _ => 0) ["A", "B"] (Or.inl rfl)

/-- C4: at a pairing step of `generate_pairs` (a helper call receiving the
exclusion dict built from the roster `orig` and the history), if at least one
remaining member is not in the current member's exclusion set (not
historically paired with them), then the selected partner is not in the
exclusion set; an excluded partner is selected only when the filtered
candidate set is empty. -/
theorem pairing_step_respects_exclusion (orig ms : List Member)
    (hist : Option (List (List MPair))) (m1 : Member) (c : Nat)
    (p : MPair) (ms2 : List Member)
    (hm1 : m1 ∈ orig)
    (hstep : pair_excluding_historic_matches m1 ms (mpm_of orig hist) c =
      some (p, ms2))
    (hfeas : ∃ m ∈ ms, ¬ historicallyPaired (hist.getD []) m1 m) :
    ¬ historicallyPaired (hist.getD []) m1 p.2 := by
  obtain ⟨m, hm_ms, hm_not⟩ := hfeas
  by_cases hcond : (!orig.isEmpty && history_truthy hist) = true
  · have hmpm_eq : mpm_of orig hist =
        members_previous_matches orig (hist.getD []) := by
      unfold mpm_of
      rw [if_pos hcond]
    have hlk := lookup_members_previous_matches (hist.getD []) hm1
    have hne_mpm :
        ¬ (members_previous_matches orig (hist.getD [])).isEmpty = true := by
      cases orig with
      | nil => cases hm1
      | cons x xs => simp [members_previous_matches]
    rw [hmpm_eq] at hstep
    simp only [pair_excluding_historic_matches] at hstep
    rw [if_neg hne_mpm, hlk, Option.some_bind] at hstep
    have hm_nd : m ∉ (build_matches m1 (hist.getD [])).dedup := by
      rw [List.mem_dedup]
      exact fun hc => hm_not (mem_build_matches.mp hc)
    have hmem_f : m ∈ ms.filter
        (fun x => !((build_matches m1 (hist.getD [])).dedup.contains x)) := by
      refine List.mem_filter.mpr ⟨hm_ms, ?_⟩
      simp [hm_nd]
    cases hp : pyPick (ms.filter
        fun x => !((build_matches m1 (hist.getD [])).dedup.contains x)) c with
    | none =>
      rw [pyPick_eq_none hp] at hmem_f
      cases hmem_f
    | some m2 =>
      rw [hp] at hstep
      simp only [Option.map_eq_some'] at hstep
      obtain ⟨m2', hm2', heq⟩ := hstep
      injection hm2' with hm2eq
      subst hm2eq
      have hpeq : (m1, m2) = p := congrArg Prod.fst heq
      have hp2eq : p.2 = m2 := by rw [← hpeq]
      have hm2f := (List.mem_filter.mp (pyPick_mem hp)).2
      have hnot2 : m2 ∉ (build_matches m1 (hist.getD [])).dedup := by
        simpa using hm2f
      rw [hp2eq]
      intro hc
      exact hnot2 (List.mem_dedup.mpr (mem_build_matches.mpr hc))
  · have horigb : (!orig.isEmpty) = true := by
      cases orig with
      | nil => cases hm1
      | cons x xs => rfl
    have hhist : history_truthy hist = false := by
      cases hht : history_truthy hist
      · rfl
      · exfalso
        apply hcond
        rw [horigb, hht]
        rfl
    have hgetd : hist.getD [] = [] := by
      cases hist with
      | none => rfl
      | some l =>
        cases l with
        | nil => rfl
        | cons r rs => simp [history_truthy] at hhist
    rw [hgetd]
    intro hc
    simp [historicallyPaired] at hc

theorem pairing_step_respects_exclusion_witness :
    ¬ historicallyPaired
      ((some [[("A", "B")]] : Option (List (List MPair))).getD [])
      "A" (("A", "C") : MPair).2 :=
  pairing_step_respects_exclusion ["A", "B", "C"] ["B", "C"]
    (some [[("A", "B")]]) "A" 0 ("A", "C") ["B"] (by decide) (by decide)
    ⟨"C", by decide, by decide⟩

end PySlackRandomCoffee
